import Mathlib

/-!
# fngogen: signature extraction and type qualification

A shallow embedding of `cmd/main.go`: the type qualifier `prefixType`, the
signature renderers `parseParams` and `stringifyFields`, and the method
extraction loop of `run` (the `ast.Inspect` callback).

The Go syntax tree (`go/ast`) is embedded as the inductive types `Expr`,
`Field` and `Node`.  The Go printer (`printer.Fprint` for a fixed file set)
is a parameter `pr : Expr → String` of the renderers, because its layout
depends on source positions; `printExpr` gives the text it writes, line
breaks and indentation apart, on the shapes where that text is fixed, and
the concrete scenarios hold for every printer that agrees with it.
-/

namespace FnGoGen

/-! ## Syntax tree (`go/ast`) -/

/-- Direction of a channel type (`ast.ChanDir`). -/
inductive ChanDir
  | SEND
  | RECV
  | BOTH
  deriving DecidableEq, Repr

mutual
/-- Type expressions (`ast.Expr`), restricted to the shapes that can stand in
a method signature.  `Sel` of a selector is the name of its identifier. -/
inductive Expr
  | Ident (Name : String)
  | StarExpr (X : Expr)
  | ArrayType (Len : Option Expr) (Elt : Expr)
  | SelectorExpr (X : Expr) (Sel : String)
  | Ellipsis (Elt : Option Expr)
  | MapType (Key : Expr) (Value : Expr)
  | ChanType (Dir : ChanDir) (Value : Expr)
  | FuncType (Params : Option (List Field)) (Results : Option (List Field))
  | InterfaceType (Methods : List Field)
  | StructType (Fields : List Field)
  | ParenExpr (X : Expr)
  | BasicLit (Value : String)
/-- One entry of a field list (`ast.Field`): the declared names and the type.
A field list pointer `*ast.FieldList` is an `Option (List Field)`. -/
inductive Field
  | mk (Names : List String) (Typ : Expr)
end

/-- Declared names of a field (`field.Names`, each identifier by its name). -/
def Field.Names : Field → List String
  | .mk names _ => names

/-- Declared type of a field (`field.Type`). -/
def Field.Typ : Field → Expr
  | .mk _ typ => typ

/-- Nodes visited by `ast.Inspect`, seen through the one distinction the
callback of `run` makes: a `*ast.TypeSpec` (its name, its type, and the nodes
nested below it in walk order) or any other node with its children in walk
order (file, declarations, statements, ...). -/
inductive Node
  | TypeSpec (Name : String) (Typ : Expr) (inner : List Node)
  | Other (children : List Node)

/-! ## Constants and records of `main.go` -/

/-- The package prefix added to user-defined types. -/
def targetPkg : String := "api"

/-- Method information handed to the templates. -/
structure MethodData where
  Name : String
  FullParams : String
  ParamNames : String
  Returns : String
  deriving DecidableEq, Repr

/-! ## `prefixType` -/

/-- The map literal `builtins` of `prefixType`. -/
def builtins : List (String × Bool) :=
  [("string", true), ("int", true), ("error", true), ("bool", true), ("context", true)]

/-- Go map indexing `builtins[name]`: the zero value `false` for a missing key. -/
def builtinsAt (name : String) : Bool :=
  (builtins.lookup name).getD false

/-- Embedding of `prefixType(expr, prefix)`. -/
def prefixType : Expr → String → Expr
  | .Ident name, p =>
    if builtinsAt name then .Ident name else .SelectorExpr (.Ident p) name
  | .StarExpr x, p => .StarExpr (prefixType x p)
  | .ArrayType len elt, p => .ArrayType len (prefixType elt p)
  | .SelectorExpr x sel, _ => .SelectorExpr x sel
  | e, _ => e

/-! ## Text helpers (`strings`, `fmt`) -/

/-- The call `strings.ReplaceAll(s, c, "")` for a one-character pattern `c`:
every occurrence of `c` is deleted. -/
def removeAll (s : String) (c : Char) : String :=
  ⟨s.data.filter (fun d => d != c)⟩

/-- The call `strings.ReplaceAll(strings.ReplaceAll(s, "\n", ""), "\t", "")`. -/
def stripLayout (s : String) : String :=
  removeAll (removeAll s '\n') '\t'

/-- The call `strings.Join(elems, ", ")`. -/
def joinComma (elems : List String) : String :=
  ", ".intercalate elems

/-- The call `fmt.Sprintf("%s %s", name, typeStr)`. -/
def sprintfNameType (name typeStr : String) : String :=
  name ++ " " ++ typeStr

/-- The call `fmt.Sprintf("arg%d", i)` for a slice index `i`. -/
def sprintfArg (i : Nat) : String :=
  "arg" ++ Nat.repr i

/-! ## `parseParams` and `stringifyFields` -/

/-- The text both renderers compute for a field type: qualify with
`targetPkg`, print, then delete line feeds and tabs. -/
def typeText (pr : Expr → String) (t : Expr) : String :=
  stripLayout (pr (prefixType t targetPkg))

/-- Inner loop of `parseParams` over the declared names of one field; the
state is the pair `(full, names)`. -/
def parseParamsNames (typeStr : String) :
    List String → List String × List String → List String × List String
  | [], acc => acc
  | n :: ns, (full, names) =>
    parseParamsNames typeStr ns (full ++ [sprintfNameType n typeStr], names ++ [n])

/-- Outer loop of `parseParams`, from field index `i` on; the state is the
pair `(full, names)`. -/
def parseParamsLoop (pr : Expr → String) :
    List Field → Nat → List String × List String → List String × List String
  | [], _, acc => acc
  | field :: rest, i, (full, names) =>
    let typeStr := typeText pr field.Typ
    if field.Names.length > 0 then
      parseParamsLoop pr rest (i + 1) (parseParamsNames typeStr field.Names (full, names))
    else
      let argName := sprintfArg i
      parseParamsLoop pr rest (i + 1)
        (full ++ [sprintfNameType argName typeStr], names ++ [argName])

/-- The slices `full` and `names` of `parseParams` when the loop ends. -/
def parseParamsEntries (pr : Expr → String) (list : List Field) :
    List String × List String :=
  parseParamsLoop pr list 0 ([], [])

/-- Embedding of `parseParams(fset, list)`, the printer of `fset` being `pr`. -/
def parseParams (pr : Expr → String) : Option (List Field) → String × List String
  | none => ("", [])
  | some list =>
    let entries := parseParamsEntries pr list
    (joinComma entries.1, entries.2)

/-- Loop of `stringifyFields`; the state is the slice `parts`. -/
def stringifyFieldsLoop (pr : Expr → String) : List Field → List String → List String
  | [], parts => parts
  | f :: rest, parts => stringifyFieldsLoop pr rest (parts ++ [typeText pr f.Typ])

/-- Embedding of `stringifyFields(fset, list)`, the printer of `fset` being `pr`. -/
def stringifyFields (pr : Expr → String) : Option (List Field) → String
  | none => ""
  | some list =>
    let parts := stringifyFieldsLoop pr list []
    if parts.length > 1 then "(" ++ joinComma parts ++ ")" else joinComma parts

/-! ## The extraction loop of `run` -/

/-- The loop `for _, method := range inter.Methods.List` of `run`; the state
is the slice `methods`.  Indexing `method.Names[0]` of an empty slice is a
run-time panic, rendered as `none`. -/
def runMethodsLoop (pr : Expr → String) :
    List Field → List MethodData → Option (List MethodData)
  | [], methods => some methods
  | method :: rest, methods =>
    match method.Typ with
    | .FuncType params results =>
      let parsed := parseParams pr params
      match method.Names.head? with
      | none => none
      | some name =>
        runMethodsLoop pr rest (methods ++ [{
          Name := name
          FullParams := parsed.1
          ParamNames := joinComma parsed.2
          Returns := stringifyFields pr results }])
    | _ => runMethodsLoop pr rest methods

/-- The function literal passed to `ast.Inspect` in `run`: the returned
boolean tells the walk whether to descend into the node, the list is the
slice `methods` afterwards. -/
def inspectCallback (pr : Expr → String) (n : Node) (methods : List MethodData) :
    Option (Bool × List MethodData) :=
  match n with
  | .TypeSpec name typ _ =>
    if name != "Handler" then some (true, methods)
    else
      match typ with
      | .InterfaceType list =>
        (runMethodsLoop pr list methods).map (fun ms => (false, ms))
      | _ => some (true, methods)
  | .Other _ => some (true, methods)

mutual
/-- The walk `ast.Inspect(node, f)` with the callback of `run`: depth first,
the callback before the children, the children skipped when it returns
false.  (The closing call of the callback on the nil node returns true and
changes nothing.) -/
def inspect (pr : Expr → String) : Node → List MethodData → Option (List MethodData)
  | .TypeSpec name typ inner, methods =>
    match inspectCallback pr (.TypeSpec name typ inner) methods with
    | none => none
    | some (true, ms) => inspectList pr inner ms
    | some (false, ms) => some ms
  | .Other children, methods =>
    match inspectCallback pr (.Other children) methods with
    | none => none
    | some (true, ms) => inspectList pr children ms
    | some (false, ms) => some ms
/-- The walk over the children of a node, in order. -/
def inspectList (pr : Expr → String) :
    List Node → List MethodData → Option (List MethodData)
  | [], methods => some methods
  | n :: ns, methods =>
    match inspect pr n methods with
    | none => none
    | some ms => inspectList pr ns ms
end

/-- The slice `methods` of `run` after the walk over the parsed file `node`
(`none` when the walk panics). -/
def run (pr : Expr → String) (node : Node) : Option (List MethodData) :=
  inspect pr node []

/-! ## The Go printer on position-independent shapes -/

/-- Text that `printer.Fprint` writes for a type expression, line breaks and
indentation apart, on the shapes whose text does not depend on the layout of
the source; `none` on the others (function, interface and struct types,
selectors of a compound operand). -/
def printExpr : Expr → Option String
  | .Ident name => some name
  | .StarExpr x => (printExpr x).map (fun s => "*" ++ s)
  | .ArrayType none elt => (printExpr elt).map (fun s => "[]" ++ s)
  | .ArrayType (some len) elt =>
    (printExpr len).bind (fun l => (printExpr elt).map (fun s => "[" ++ l ++ "]" ++ s))
  | .SelectorExpr (.Ident x) sel => some (x ++ "." ++ sel)
  | .SelectorExpr _ _ => none
  | .Ellipsis none => some "..."
  | .Ellipsis (some elt) => (printExpr elt).map (fun s => "..." ++ s)
  | .MapType key value =>
    (printExpr key).bind (fun k => (printExpr value).map (fun v => "map[" ++ k ++ "]" ++ v))
  | .ChanType .BOTH value => (printExpr value).map (fun s => "chan " ++ s)
  | .ChanType .RECV value => (printExpr value).map (fun s => "<-chan " ++ s)
  | .ChanType .SEND value => (printExpr value).map (fun s => "chan<- " ++ s)
  | .FuncType _ _ => none
  | .InterfaceType _ => none
  | .StructType _ => none
  | .ParenExpr (.ParenExpr x) => printExpr (.ParenExpr x)
  | .ParenExpr x => (printExpr x).map (fun s => "(" ++ s ++ ")")
  | .BasicLit value => some value

/-- A printer agrees with `printExpr` up to line feeds and tabs, which is all
the renderers keep of its output. -/
def PrintsUpToLayout (pr : Expr → String) : Prop :=
  ∀ (e : Expr) (s : String), printExpr e = some s → stripLayout (pr e) = stripLayout s

/-- The printer that writes the text of `printExpr` with no line break. -/
def plainPrinter (e : Expr) : String :=
  (printExpr e).getD ""

/-! ## Specification vocabulary for the qualifier -/

/-- The builtin primitive set of the specification. -/
def builtinNames : List String := ["string", "int", "bool", "error", "context"]

/-- One layer of pointer or slice/array wrapping. -/
inductive Wrapper
  | pointer
  | slice (Len : Option Expr)

/-- Wrap an expression in a sequence of wrappers, outermost first. -/
def wrap : List Wrapper → Expr → Expr
  | [], e => e
  | .pointer :: ws, e => .StarExpr (wrap ws e)
  | .slice len :: ws, e => .ArrayType len (wrap ws e)

/-- Shape of the leading pointer and slice/array layers, outermost first:
`true` for a pointer, `false` for a slice or array. -/
def wrapperShape : Expr → List Bool
  | .StarExpr x => true :: wrapperShape x
  | .ArrayType _ elt => false :: wrapperShape elt
  | _ => []

/-! ## Specification vocabulary for the renderers -/

/-- Names a parameter field contributes at field index `i`: its declared
names, or the synthetic `arg<i>` when it declares none. -/
def fieldNames (i : Nat) (f : Field) : List String :=
  if f.Names = [] then [sprintfArg i] else f.Names

/-- The parameters of a field list from field index `i` on, in declaration
order, each name paired with the type text of the field that declares it. -/
def declaredParams (pr : Expr → String) : Nat → List Field → List (String × String)
  | _, [] => []
  | i, f :: rest =>
    (fieldNames i f).map (fun n => (n, typeText pr f.Typ)) ++ declaredParams pr (i + 1) rest

/-- Type texts of the fields of an anonymous field list, each paired with its
position counted from `i`. -/
def anonymousParams (pr : Expr → String) : Nat → List Field → List (String × String)
  | _, [] => []
  | i, f :: rest => (sprintfArg i, typeText pr f.Typ) :: anonymousParams pr (i + 1) rest

/-! ## Specification vocabulary for the extraction -/

mutual
/-- Method lists of all the type declarations of a tree that are named
`Handler` and of interface type, in walk order. -/
def handlerDecls : Node → List (List Field)
  | .TypeSpec name typ inner =>
    (match typ with
      | .InterfaceType list => if name = "Handler" then [list] else []
      | _ => []) ++ handlerDeclsList inner
  | .Other children => handlerDeclsList children
/-- The same over a list of sibling nodes. -/
def handlerDeclsList : List Node → List (List Field)
  | [] => []
  | n :: ns => handlerDecls n ++ handlerDeclsList ns
end

/-- An entry of an interface method list is a method signature when its
type is a function type (the others are embedded elements). -/
def isMethodSig (f : Field) : Bool :=
  match f.Typ with
  | .FuncType _ _ => true
  | _ => false

/-- The method signatures of an interface method list, in declaration order. -/
def methodSigs (list : List Field) : List Field :=
  list.filter isMethodSig

/-- The contract file of the end-to-end scenario: the package name, then the
declaration `type Handler interface { CreateUser(ctx context.Context, req
User) (*User, error) }`, with `inner` the nodes below the type declaration. -/
def scenarioFile (inner : List Node) : Node :=
  .Other [.Other [],
    .Other [.TypeSpec "Handler"
      (.InterfaceType [.mk ["CreateUser"]
        (.FuncType
          (some [.mk ["ctx"] (.SelectorExpr (.Ident "context") "Context"),
                 .mk ["req"] (.Ident "User")])
          (some [.mk [] (.StarExpr (.Ident "User")), .mk [] (.Ident "error")]))])
      inner]]

mutual
/-- Method lists of the type declarations named `Handler` and of interface
type that do not lie below another such declaration, in walk order. -/
def visitedDecls : Node → List (List Field)
  | .TypeSpec name typ inner =>
    match typ with
    | .InterfaceType list => if name = "Handler" then [list] else visitedDeclsList inner
    | _ => visitedDeclsList inner
  | .Other children => visitedDeclsList children
/-- The same over a list of sibling nodes. -/
def visitedDeclsList : List Node → List (List Field)
  | [] => []
  | n :: ns => visitedDecls n ++ visitedDeclsList ns
end

/-- Methods of a sequence of interface method lists: the methods of each
list, extracted on its own, one list after the other (`none` when the
extraction of one of them panics). -/
def methodsOfDecls (pr : Expr → String) : List (List Field) → Option (List MethodData)
  | [] => some []
  | list :: rest =>
    match runMethodsLoop pr list [], methodsOfDecls pr rest with
    | some ms, some more => some (ms ++ more)
    | _, _ => none

/-- A method signature `name()` of an interface method list. -/
def plainMethod (name : String) : Field :=
  .mk [name] (.FuncType (some []) none)

/-- A file with two interface type declarations named `Handler`: the
package name, then `type Handler interface { First() }` at package level,
then the function `func local() { type Handler interface { Second() } }`
(its name, its type, and its body: a block with one declaration statement). -/
def twoHandlerFile : Node :=
  .Other [.Other [],
    .Other [.TypeSpec "Handler" (.InterfaceType [plainMethod "First"]) []],
    .Other [.Other [], .Other [],
      .Other [.Other [.Other [
        .TypeSpec "Handler" (.InterfaceType [plainMethod "Second"]) []]]]]]

/-- A file without contract: the package name, `type Handler struct{}` and
`type Service interface { Ping() }`. -/
def noContractFile : Node :=
  .Other [.Other [],
    .Other [.TypeSpec "Handler" (.StructType []) []],
    .Other [.TypeSpec "Service" (.InterfaceType [plainMethod "Ping"]) []]]

/-! ## Specification vocabulary for the later qualifier claims -/

/-- The predeclared type names of Go (the types of the universe block). -/
def predeclaredTypes : List String :=
  ["any", "bool", "byte", "comparable", "complex64", "complex128", "error", "float32",
   "float64", "int", "int8", "int16", "int32", "int64", "rune", "string", "uint", "uint8",
   "uint16", "uint32", "uint64", "uintptr"]

mutual
/-- The unqualified identifiers in type position of a type expression (the
operand of a selector and the length of an array are not type positions). -/
def typeIdents : Expr → List String
  | .Ident name => [name]
  | .StarExpr x => typeIdents x
  | .ArrayType _ elt => typeIdents elt
  | .SelectorExpr _ _ => []
  | .Ellipsis none => []
  | .Ellipsis (some elt) => typeIdents elt
  | .MapType key value => typeIdents key ++ typeIdents value
  | .ChanType _ value => typeIdents value
  | .FuncType params results => typeIdentsOpt params ++ typeIdentsOpt results
  | .InterfaceType methods => typeIdentsFields methods
  | .StructType fields => typeIdentsFields fields
  | .ParenExpr x => typeIdents x
  | .BasicLit _ => []
/-- The same over an optional field list. -/
def typeIdentsOpt : Option (List Field) → List String
  | none => []
  | some list => typeIdentsFields list
/-- The same over the types of a field list. -/
def typeIdentsFields : List Field → List String
  | [] => []
  | .mk _ typ :: rest => typeIdents typ ++ typeIdentsFields rest
end

/-- The expression is built only from the shapes of the specification:
named, pointer, slice/array and qualified (a selector of a package name). -/
def supported : Expr → Bool
  | .Ident _ => true
  | .StarExpr x => supported x
  | .ArrayType _ elt => supported elt
  | .SelectorExpr (.Ident _) _ => true
  | _ => false

/-- The outermost shape is one `prefixType` has a case for: identifier,
pointer, slice/array or selector. -/
def outerSupported : Expr → Bool
  | .Ident _ => true
  | .StarExpr _ => true
  | .ArrayType _ _ => true
  | .SelectorExpr _ _ => true
  | _ => false

/-! ## Specification vocabulary for the later renderer claims -/

/-- The text contains no line feed and no tab. -/
def singleLine (s : String) : Bool :=
  s.data.all (fun c => c != '\n' && c != '\t')

/-- The number a list of decimal digit characters denotes, most significant
digit first, continuing from `acc`. -/
def digitsValue (cs : List Char) (acc : Nat) : Nat :=
  cs.foldl (fun a c => a * 10 + (c.toNat - 48)) acc

/-! ## Lemmas on `prefixType` -/

theorem builtinsAt_iff (name : String) : builtinsAt name = true ↔ name ∈ builtinNames := by
  unfold builtinsAt builtins builtinNames
  simp only [List.lookup]
  constructor
  · intro h
    repeat' split at h
    all_goals simp_all
  · intro h
    simp only [List.mem_cons, List.mem_singleton, List.not_mem_nil, or_false] at h
    rcases h with h | h | h | h | h <;> subst h <;> decide

theorem prefixType_ident_builtin {name : String} (p : String) (h : builtinsAt name = true) :
    prefixType (.Ident name) p = .Ident name := by
  simp [prefixType, h]

theorem prefixType_ident_user {name : String} (p : String) (h : builtinsAt name = false) :
    prefixType (.Ident name) p = .SelectorExpr (.Ident p) name := by
  simp [prefixType, h]

theorem prefixType_wrap (ws : List Wrapper) (e : Expr) (p : String) :
    prefixType (wrap ws e) p = wrap ws (prefixType e p) := by
  induction ws with
  | nil => rfl
  | cons w ws ih =>
    cases w with
    | pointer => simp [wrap, prefixType, ih]
    | slice len => simp [wrap, prefixType, ih]

theorem prefixType_prefixType (p : String) :
    ∀ e : Expr, prefixType (prefixType e p) p = prefixType e p
  | .Ident name => by
    cases h : builtinsAt name <;> simp [prefixType, h]
  | .StarExpr x => by
    simp [prefixType, prefixType_prefixType p x]
  | .ArrayType len elt => by
    simp [prefixType, prefixType_prefixType p elt]
  | .SelectorExpr _ _ => rfl
  | .Ellipsis _ => rfl
  | .MapType _ _ => rfl
  | .ChanType _ _ => rfl
  | .FuncType _ _ => rfl
  | .InterfaceType _ => rfl
  | .StructType _ => rfl
  | .ParenExpr _ => rfl
  | .BasicLit _ => rfl

theorem wrapperShape_prefixType (p : String) :
    ∀ e : Expr, wrapperShape (prefixType e p) = wrapperShape e
  | .Ident name => by
    cases h : builtinsAt name <;> simp [prefixType, h, wrapperShape]
  | .StarExpr x => by
    simp [prefixType, wrapperShape, wrapperShape_prefixType p x]
  | .ArrayType len elt => by
    simp [prefixType, wrapperShape, wrapperShape_prefixType p elt]
  | .SelectorExpr _ _ => rfl
  | .Ellipsis _ => rfl
  | .MapType _ _ => rfl
  | .ChanType _ _ => rfl
  | .FuncType _ _ => rfl
  | .InterfaceType _ => rfl
  | .StructType _ => rfl
  | .ParenExpr _ => rfl
  | .BasicLit _ => rfl

/-! ## Lemmas on the renderers -/

theorem stringifyFieldsLoop_eq (pr : Expr → String) (list : List Field) (parts : List String) :
    stringifyFieldsLoop pr list parts = parts ++ list.map (fun f => typeText pr f.Typ) := by
  induction list generalizing parts with
  | nil => simp [stringifyFieldsLoop]
  | cons f rest ih => simp [stringifyFieldsLoop, ih]

theorem joinComma_singleton (a : String) : joinComma [a] = a := by
  simp [joinComma, String.intercalate, String.intercalate.go]

theorem typeText_of_printExpr {pr : Expr → String} (hpr : PrintsUpToLayout pr)
    (t : Expr) (s : String) (h : printExpr (prefixType t targetPkg) = some s) :
    typeText pr t = stripLayout s :=
  hpr _ s h

theorem parseParamsNames_eq (typeStr : String) (ns full names : List String) :
    parseParamsNames typeStr ns (full, names) =
      (full ++ ns.map (fun n => sprintfNameType n typeStr), names ++ ns) := by
  induction ns generalizing full names with
  | nil => simp [parseParamsNames]
  | cons n ns ih => simp [parseParamsNames, ih]

theorem parseParamsLoop_eq (pr : Expr → String) (list : List Field) (i : Nat)
    (full names : List String) :
    parseParamsLoop pr list i (full, names) =
      (full ++ (declaredParams pr i list).map (fun e => sprintfNameType e.1 e.2),
       names ++ (declaredParams pr i list).map Prod.fst) := by
  induction list generalizing i full names with
  | nil => simp [parseParamsLoop, declaredParams]
  | cons f rest ih =>
    by_cases hn : f.Names = []
    · simp [parseParamsLoop, declaredParams, fieldNames, hn, ih]
    · have hpos : f.Names.length > 0 := List.length_pos.2 hn
      simp [parseParamsLoop, declaredParams, fieldNames, hn, hpos, ih, parseParamsNames_eq,
        Function.comp_def]

theorem parseParamsEntries_eq (pr : Expr → String) (list : List Field) :
    parseParamsEntries pr list =
      ((declaredParams pr 0 list).map (fun e => sprintfNameType e.1 e.2),
       (declaredParams pr 0 list).map Prod.fst) := by
  simp [parseParamsEntries, parseParamsLoop_eq]

theorem declaredParams_anonymous (pr : Expr → String) (list : List Field) (i : Nat)
    (h : ∀ f ∈ list, f.Names = []) :
    declaredParams pr i list = anonymousParams pr i list := by
  induction list generalizing i with
  | nil => rfl
  | cons f rest ih =>
    have hf : f.Names = [] := h f (List.mem_cons_self _ _)
    have hrest : ∀ g ∈ rest, g.Names = [] := fun g hg => h g (List.mem_cons_of_mem _ hg)
    simp [declaredParams, anonymousParams, fieldNames, hf, ih _ hrest]

theorem anonymousParams_names (pr : Expr → String) (list : List Field) (i : Nat) :
    (anonymousParams pr i list).map Prod.fst = (List.range' i list.length).map sprintfArg := by
  induction list generalizing i with
  | nil => rfl
  | cons f rest ih => simp [anonymousParams, List.range', ih]

/-! ## Lemmas on the extraction -/

theorem inspect_other (pr : Expr → String) (children : List Node) (acc : List MethodData) :
    inspect pr (.Other children) acc = inspectList pr children acc := by
  simp [inspect, inspectCallback]

theorem inspect_handler (pr : Expr → String) (list : List Field) (inner : List Node)
    (acc : List MethodData) :
    inspect pr (.TypeSpec "Handler" (.InterfaceType list) inner) acc =
      runMethodsLoop pr list acc := by
  simp only [inspect, inspectCallback]
  cases runMethodsLoop pr list acc <;> simp

theorem inspect_not_handler (pr : Expr → String) (name : String) (typ : Expr)
    (inner : List Node) (acc : List MethodData)
    (h : name ≠ "Handler" ∨ ∀ list, typ ≠ .InterfaceType list) :
    inspect pr (.TypeSpec name typ inner) acc = inspectList pr inner acc := by
  by_cases hn : name = "Handler"
  · have ht : ∀ list, typ ≠ .InterfaceType list := h.resolve_left (fun c => c hn)
    cases typ <;> simp_all [inspect, inspectCallback]
  · simp [inspect, inspectCallback, hn]

theorem handlerDecls_handler (list : List Field) (inner : List Node) :
    handlerDecls (.TypeSpec "Handler" (.InterfaceType list) inner) =
      list :: handlerDeclsList inner := by
  simp [handlerDecls]

theorem handlerDecls_not_handler (name : String) (typ : Expr) (inner : List Node)
    (h : name ≠ "Handler" ∨ ∀ list, typ ≠ .InterfaceType list) :
    handlerDecls (.TypeSpec name typ inner) = handlerDeclsList inner := by
  by_cases hn : name = "Handler"
  · have ht : ∀ list, typ ≠ .InterfaceType list := h.resolve_left (fun c => c hn)
    cases typ <;> simp_all [handlerDecls]
  · cases typ <;> simp [handlerDecls, hn]

theorem typeSpec_cases (name : String) (typ : Expr) :
    (name = "Handler" ∧ ∃ list, typ = .InterfaceType list) ∨
    (name ≠ "Handler" ∨ ∀ list, typ ≠ .InterfaceType list) := by
  by_cases hn : name = "Handler"
  · cases typ <;> simp [hn]
  · exact Or.inr (Or.inl hn)

mutual
theorem inspect_no_decl (pr : Expr → String) :
    ∀ (n : Node) (acc : List MethodData), handlerDecls n = [] → inspect pr n acc = some acc
  | .TypeSpec name typ inner, acc, h => by
    rcases typeSpec_cases name typ with ⟨hn, list, ht⟩ | hne
    · subst hn; subst ht
      rw [handlerDecls_handler] at h
      cases h
    · rw [handlerDecls_not_handler name typ inner hne] at h
      rw [inspect_not_handler pr name typ inner acc hne]
      exact inspectList_no_decl pr inner acc h
  | .Other children, acc, h => by
    rw [inspect_other]
    exact inspectList_no_decl pr children acc (by simpa [handlerDecls] using h)
theorem inspectList_no_decl (pr : Expr → String) :
    ∀ (ns : List Node) (acc : List MethodData),
      handlerDeclsList ns = [] → inspectList pr ns acc = some acc
  | [], acc, _ => by simp [inspectList]
  | n :: ns, acc, h => by
    simp only [handlerDeclsList, List.append_eq_nil] at h
    simp [inspectList, inspect_no_decl pr n acc h.1, inspectList_no_decl pr ns acc h.2]
end

theorem append_eq_singleton_cases {α : Type} {l₁ l₂ : List α} {a : α}
    (h : l₁ ++ l₂ = [a]) : (l₁ = [] ∧ l₂ = [a]) ∨ (l₁ = [a] ∧ l₂ = []) := by
  cases l₁ with
  | nil => exact Or.inl ⟨rfl, by simpa using h⟩
  | cons b t =>
    simp only [List.cons_append, List.cons.injEq, List.append_eq_nil] at h
    obtain ⟨hb, ht, hl⟩ := h
    exact Or.inr ⟨by rw [hb, ht], hl⟩

theorem inspectList_bind (pr : Expr → String) (n : Node) (ns : List Node)
    (acc : List MethodData) :
    inspectList pr (n :: ns) acc = (inspect pr n acc).bind (inspectList pr ns) := by
  simp only [inspectList]
  cases inspect pr n acc <;> rfl

mutual
theorem inspect_single_decl (pr : Expr → String) :
    ∀ (n : Node) (acc : List MethodData) (list : List Field),
      handlerDecls n = [list] → inspect pr n acc = runMethodsLoop pr list acc
  | .TypeSpec name typ inner, acc, list, h => by
    rcases typeSpec_cases name typ with ⟨hn, l, ht⟩ | hne
    · subst hn; subst ht
      rw [handlerDecls_handler] at h
      rw [inspect_handler]
      simp only [List.cons.injEq] at h
      rw [h.1]
    · rw [handlerDecls_not_handler name typ inner hne] at h
      rw [inspect_not_handler pr name typ inner acc hne]
      exact inspectList_single_decl pr inner acc list h
  | .Other children, acc, list, h => by
    rw [inspect_other]
    exact inspectList_single_decl pr children acc list (by simpa [handlerDecls] using h)
theorem inspectList_single_decl (pr : Expr → String) :
    ∀ (ns : List Node) (acc : List MethodData) (list : List Field),
      handlerDeclsList ns = [list] → inspectList pr ns acc = runMethodsLoop pr list acc
  | [], acc, list, h => by simp [handlerDeclsList] at h
  | n :: ns, acc, list, h => by
    rw [inspectList_bind]
    rcases append_eq_singleton_cases (by simpa [handlerDeclsList] using h) with
      ⟨h1, h2⟩ | ⟨h1, h2⟩
    · rw [inspect_no_decl pr n acc h1]
      exact inspectList_single_decl pr ns acc list h2
    · rw [inspect_single_decl pr n acc list h1]
      cases hr : runMethodsLoop pr list acc with
      | none => rfl
      | some ms => exact inspectList_no_decl pr ns ms h2
end

theorem runMethodsLoop_named (pr : Expr → String) :
    ∀ (list : List Field) (acc : List MethodData),
      (∀ f ∈ methodSigs list, f.Names ≠ []) →
      ∃ ms : List MethodData, runMethodsLoop pr list acc = some (acc ++ ms) ∧
        ms.map (fun m => some m.Name) = (methodSigs list).map (fun f => f.Names.head?)
  | [], acc, _ => ⟨[], by simp [runMethodsLoop], by simp [methodSigs]⟩
  | .mk names typ :: rest, acc, h => by
    by_cases hsig : isMethodSig (.mk names typ) = true
    · have hmem : Field.mk names typ ∈ methodSigs (.mk names typ :: rest) := by
        simp [methodSigs, List.filter, hsig]
      have hnames : names ≠ [] := h _ hmem
      have hrest : ∀ f ∈ methodSigs rest, f.Names ≠ [] := by
        intro f hf
        apply h
        simp only [methodSigs, List.filter, hsig]
        exact List.mem_cons_of_mem _ hf
      cases typ <;> simp [isMethodSig, Field.Typ] at hsig
      rename_i params results
      cases names with
      | nil => exact absurd rfl hnames
      | cons name more =>
        obtain ⟨ms, hms, hmap⟩ := runMethodsLoop_named pr rest
          (acc ++ [{
            Name := name
            FullParams := (parseParams pr params).1
            ParamNames := joinComma (parseParams pr params).2
            Returns := stringifyFields pr results }]) hrest
        refine ⟨{
            Name := name
            FullParams := (parseParams pr params).1
            ParamNames := joinComma (parseParams pr params).2
            Returns := stringifyFields pr results } :: ms, ?_, ?_⟩
        · simp only [runMethodsLoop, Field.Typ, Field.Names, List.head?]
          rw [hms]
          simp
        · simp [methodSigs, List.filter, isMethodSig, Field.Typ, Field.Names] at hmap ⊢
          exact hmap
    · have hrest : ∀ f ∈ methodSigs rest, f.Names ≠ [] := by
        intro f hf
        apply h
        simpa [methodSigs, List.filter, hsig] using hf
      obtain ⟨ms, hms, hmap⟩ := runMethodsLoop_named pr rest acc hrest
      refine ⟨ms, ?_, ?_⟩
      · rw [← hms]
        cases typ <;> simp [isMethodSig, Field.Typ] at hsig <;> simp [runMethodsLoop, Field.Typ]
      · simpa [methodSigs, List.filter, hsig] using hmap

/-! ## Claims on `prefixType` -/

/-- C1: qualification is idempotent: for every type expression and prefix,
qualifying the qualified expression again returns it unchanged. -/
theorem prefixType_idempotent (e : Expr) (p : String) :
    prefixType (prefixType e p) p = prefixType e p :=
  prefixType_prefixType p e

/-- C2: a named type is returned unchanged when its identifier is one of
string, int, bool, error, context and becomes the qualified type `p.id`
otherwise; it stays unqualified exactly for those five identifiers, and
`User` becomes `api.User`. -/
theorem prefixType_named (id p : String) :
    prefixType (.Ident id) p =
      (if id ∈ builtinNames then .Ident id else .SelectorExpr (.Ident p) id) ∧
    (prefixType (.Ident id) p = .Ident id ↔ id ∈ builtinNames) ∧
    builtinNames = ["string", "int", "bool", "error", "context"] ∧
    prefixType (.Ident "User") "api" = .SelectorExpr (.Ident "api") "User" := by
  refine ⟨?_, ?_, rfl, by rfl⟩
  · by_cases h : id ∈ builtinNames
    · rw [if_pos h]
      exact prefixType_ident_builtin p ((builtinsAt_iff id).2 h)
    · rw [if_neg h]
      apply prefixType_ident_user
      cases hb : builtinsAt id
      · rfl
      · exact absurd ((builtinsAt_iff id).1 hb) h
  · constructor
    · intro h
      cases hb : builtinsAt id
      · rw [prefixType_ident_user p hb] at h
        cases h
      · exact (builtinsAt_iff id).1 hb
    · intro h
      exact prefixType_ident_builtin p ((builtinsAt_iff id).2 h)

/-- C3: builtin exemption at any depth: for each of the five builtin names
and every finite nesting of pointer and slice/array wrappers around it, the
qualifier returns the expression unchanged. -/
theorem prefixType_builtin_any_depth (b : String) (hb : b ∈ builtinNames)
    (ws : List Wrapper) (p : String) :
    prefixType (wrap ws (.Ident b)) p = wrap ws (.Ident b) := by
  rw [prefixType_wrap, prefixType_ident_builtin p ((builtinsAt_iff b).2 hb)]

theorem prefixType_builtin_any_depth_witness :
    "int" ∈ builtinNames ∧
    prefixType (.StarExpr (.ArrayType none (.StarExpr (.Ident "int")))) "api" =
      .StarExpr (.ArrayType none (.StarExpr (.Ident "int"))) :=
  ⟨by decide,
    prefixType_builtin_any_depth "int" (by decide) [.pointer, .slice none, .pointer] "api"⟩

/-- C4: structural preservation: qualifying a pointer (slice/array) type is
the pointer (slice/array) of the qualified inner type, the sequence of
pointer and slice wrappers of the output is that of the input, and with
prefix `api` the types `*User` and `[]User` become `*api.User` and
`[]api.User`. -/
theorem prefixType_structural (x : Expr) (len : Option Expr) (p : String) :
    prefixType (.StarExpr x) p = .StarExpr (prefixType x p) ∧
    prefixType (.ArrayType len x) p = .ArrayType len (prefixType x p) ∧
    wrapperShape (prefixType x p) = wrapperShape x ∧
    (∀ ws : List Wrapper, prefixType (wrap ws x) p = wrap ws (prefixType x p)) ∧
    prefixType (.StarExpr (.Ident "User")) "api" =
      .StarExpr (.SelectorExpr (.Ident "api") "User") ∧
    prefixType (.ArrayType none (.Ident "User")) "api" =
      .ArrayType none (.SelectorExpr (.Ident "api") "User") := by
  refine ⟨rfl, rfl, wrapperShape_prefixType p x, fun ws => prefixType_wrap ws x p,
    by rfl, by rfl⟩

/-- C5: an already-qualified type is terminal: for every namespace,
identifier and prefix the qualifier returns the selector unchanged, and
`context.Context` stays `context.Context` under prefix `api`. -/
theorem prefixType_qualified (ns : Expr) (id p : String) :
    prefixType (.SelectorExpr ns id) p = .SelectorExpr ns id ∧
    prefixType (.SelectorExpr (.Ident "context") "Context") "api" =
      .SelectorExpr (.Ident "context") "Context" :=
  ⟨rfl, rfl⟩

/-! ## Claims on the renderers -/

/-- C6: return arity formatting: `stringifyFields` returns the empty string
for an absent or empty result list, the type text of the field alone (no
parentheses added) for one field, and the type texts joined by ", " in
declaration order between parentheses for two or more fields; results
`(error)` give `error` and results `(*User, error)` give `(*api.User, error)`.
The type text of a field is its qualified type as printed, line feeds and
tabs deleted. -/
theorem stringifyFields_arity (pr : Expr → String) (hpr : PrintsUpToLayout pr) :
    stringifyFields pr none = "" ∧
    stringifyFields pr (some []) = "" ∧
    (∀ f : Field, stringifyFields pr (some [f]) = typeText pr f.Typ) ∧
    (∀ (f g : Field) (rest : List Field),
      stringifyFields pr (some (f :: g :: rest)) =
        "(" ++ joinComma ((f :: g :: rest).map (fun x => typeText pr x.Typ)) ++ ")") ∧
    stringifyFields pr (some [.mk [] (.Ident "error")]) = "error" ∧
    stringifyFields pr (some [.mk [] (.StarExpr (.Ident "User")), .mk [] (.Ident "error")]) =
      "(*api.User, error)" := by
  have h1 : ∀ f : Field, stringifyFields pr (some [f]) = typeText pr f.Typ := by
    intro f
    simp [stringifyFields, stringifyFieldsLoop_eq, joinComma_singleton]
  have h2 : ∀ (f g : Field) (rest : List Field),
      stringifyFields pr (some (f :: g :: rest)) =
        "(" ++ joinComma ((f :: g :: rest).map (fun x => typeText pr x.Typ)) ++ ")" := by
    intro f g rest
    simp [stringifyFields, stringifyFieldsLoop_eq]
  have herr : typeText pr (.Ident "error") = "error" := by
    rw [typeText_of_printExpr hpr _ "error" (by rfl)]
    decide
  have husr : typeText pr (.StarExpr (.Ident "User")) = "*api.User" := by
    rw [typeText_of_printExpr hpr _ "*api.User" (by rfl)]
    decide
  refine ⟨rfl, rfl, h1, h2, ?_, ?_⟩
  · rw [h1]
    exact herr
  · rw [h2]
    simp only [List.map, Field.Typ, herr, husr]
    decide

theorem plainPrinter_printsUpToLayout : PrintsUpToLayout plainPrinter := by
  intro e s h
  simp [plainPrinter, h]

theorem stringifyFields_arity_witness :
    PrintsUpToLayout plainPrinter ∧
    stringifyFields plainPrinter
        (some [.mk [] (.StarExpr (.Ident "User")), .mk [] (.Ident "error")]) =
      "(*api.User, error)" :=
  ⟨plainPrinter_printsUpToLayout,
    (stringifyFields_arity plainPrinter plainPrinter_printsUpToLayout).2.2.2.2.2⟩

/-- C7: anonymous parameter naming: for a parameter list of length N in
which no field declares a name, `parseParams` returns the names `arg0`, ...,
`arg(N-1)` in declaration order, and the i-th entry of the full-parameter
text (the entries being joined by ", ") is `arg<i>`, a space, and the type
text of the i-th field. -/
theorem parseParams_anonymous (pr : Expr → String) (list : List Field)
    (h : ∀ f ∈ list, f.Names = []) :
    (parseParams pr (some list)).2 = (List.range list.length).map sprintfArg ∧
    (parseParams pr (some list)).1 = joinComma (parseParamsEntries pr list).1 ∧
    (parseParamsEntries pr list).1.length = list.length ∧
    (∀ (i : Nat) (f : Field), list[i]? = some f →
      (parseParamsEntries pr list).1[i]? = some (sprintfArg i ++ " " ++ typeText pr f.Typ)) ∧
    (∀ i : Nat, sprintfArg i = "arg" ++ Nat.repr i) ∧
    sprintfArg 0 = "arg0" ∧ sprintfArg 1 = "arg1" ∧ sprintfArg 10 = "arg10" := by
  have hfull : ∀ (l : List Field) (k i : Nat) (f : Field), l[i]? = some f →
      ((anonymousParams pr k l).map (fun e => sprintfNameType e.1 e.2))[i]? =
        some (sprintfArg (k + i) ++ " " ++ typeText pr f.Typ) := by
    intro l
    induction l with
    | nil => intro k i f hf; simp at hf
    | cons g rest ih =>
      intro k i f hf
      cases i with
      | zero =>
        simp at hf
        subst hf
        simp [anonymousParams, sprintfNameType]
      | succ j =>
        simp at hf
        have := ih (k + 1) j f hf
        have e : k + 1 + j = k + (j + 1) := by omega
        rw [e] at this
        simp only [anonymousParams, List.map_cons, List.getElem?_cons_succ]
        exact this
  have hlen : ∀ (l : List Field) (k : Nat), (anonymousParams pr k l).length = l.length := by
    intro l
    induction l with
    | nil => intro k; rfl
    | cons g rest ih => intro k; simp [anonymousParams, ih]
  refine ⟨?_, rfl, ?_, ?_, fun _ => rfl, by decide, by decide, by decide⟩
  · simp only [parseParams, parseParamsEntries_eq, declaredParams_anonymous pr list 0 h,
      anonymousParams_names, List.range_eq_range']
  · simp [parseParamsEntries_eq, declaredParams_anonymous pr list 0 h, hlen]
  · intro i f hf
    simp only [parseParamsEntries_eq, declaredParams_anonymous pr list 0 h]
    have := hfull list 0 i f hf
    simpa using this

theorem parseParams_anonymous_witness :
    (∀ f ∈ [Field.mk [] (.Ident "User"), Field.mk [] (.Ident "int")], f.Names = []) ∧
    (parseParams plainPrinter (some [.mk [] (.Ident "User"), .mk [] (.Ident "int")])).2 =
      (List.range [Field.mk [] (.Ident "User"), Field.mk [] (.Ident "int")].length).map
        sprintfArg :=
  ⟨by simp [Field.Names],
    (parseParams_anonymous plainPrinter [.mk [] (.Ident "User"), .mk [] (.Ident "int")]
      (by simp [Field.Names])).1⟩

/-- C8: parameter rendering preserves declaration order and arity:
`parseParams` yields one entry per declared name (a field with k ≥ 1 names
gives k consecutive entries, an anonymous field gives one), in declaration
order; the name list and the full-parameter entries have the same length;
the j-th full-parameter entry is the j-th name, a space, and the type text of
the field that declares it; the entries are joined by ", "; and two fields of
the same declared type stay two entries. -/
theorem parseParams_order_arity (pr : Expr → String) (list : List Field) :
    (parseParams pr (some list)).2 = (declaredParams pr 0 list).map Prod.fst ∧
    (parseParams pr (some list)).1 =
      joinComma ((declaredParams pr 0 list).map (fun e => e.1 ++ " " ++ e.2)) ∧
    (∀ (i : Nat) (f : Field) (rest : List Field),
      declaredParams pr i (f :: rest) =
        (if f.Names = [] then [(sprintfArg i, typeText pr f.Typ)]
          else f.Names.map (fun n => (n, typeText pr f.Typ))) ++
        declaredParams pr (i + 1) rest) ∧
    (parseParams pr (some list)).2.length = (parseParamsEntries pr list).1.length ∧
    (parseParams pr (some list)).1 = joinComma (parseParamsEntries pr list).1 ∧
    (∀ (j : Nat) (name : String), (parseParams pr (some list)).2[j]? = some name →
      ∃ typ : String, (declaredParams pr 0 list)[j]? = some (name, typ) ∧
        (parseParamsEntries pr list).1[j]? = some (name ++ " " ++ typ)) ∧
    parseParams pr (some [.mk ["a"] (.Ident "int"), .mk ["b"] (.Ident "int")]) =
      (joinComma ["a " ++ typeText pr (.Ident "int"), "b " ++ typeText pr (.Ident "int")],
       ["a", "b"]) ∧
    parseParams pr none = ("", []) := by
  refine ⟨?_, ?_, ?_, ?_, rfl, ?_, ?_, rfl⟩
  · simp [parseParams, parseParamsEntries_eq]
  · simp [parseParams, parseParamsEntries_eq, sprintfNameType]
  · intro i f rest
    by_cases hn : f.Names = [] <;> simp [declaredParams, fieldNames, hn]
  · simp [parseParams, parseParamsEntries_eq]
  · intro j name hj
    simp only [parseParams, parseParamsEntries_eq, List.getElem?_map] at hj ⊢
    cases hd : (declaredParams pr 0 list)[j]? with
    | none => simp [hd] at hj
    | some e =>
      simp only [hd, Option.map_some', Option.some.injEq] at hj
      refine ⟨e.2, ?_, ?_⟩
      · rw [← hj]
      · simp [sprintfNameType, hj]
  · simp [parseParams, parseParamsEntries_eq, declaredParams, fieldNames, Field.Names,
      Field.Typ, sprintfNameType]

/-! ## Claims on the extraction -/

/-- C9: end-to-end scenario: for the contract
`Handler { CreateUser(ctx context.Context, req User) (*User, error) }` the
extraction produces exactly one `MethodData`, with name `CreateUser`, full
parameters `ctx context.Context, req api.User`, parameter names `ctx, req`
and returns `(*api.User, error)`. -/
theorem run_scenario (pr : Expr → String) (hpr : PrintsUpToLayout pr) (inner : List Node) :
    run pr (scenarioFile inner) = some [{
      Name := "CreateUser"
      FullParams := "ctx context.Context, req api.User"
      ParamNames := "ctx, req"
      Returns := "(*api.User, error)" }] := by
  have hctx : typeText pr (.SelectorExpr (.Ident "context") "Context") = "context.Context" := by
    rw [typeText_of_printExpr hpr _ "context.Context" (by rfl)]
    decide
  have husr : typeText pr (.Ident "User") = "api.User" := by
    rw [typeText_of_printExpr hpr _ "api.User" (by rfl)]
    decide
  have hptr : typeText pr (.StarExpr (.Ident "User")) = "*api.User" := by
    rw [typeText_of_printExpr hpr _ "*api.User" (by rfl)]
    decide
  have herr : typeText pr (.Ident "error") = "error" := by
    rw [typeText_of_printExpr hpr _ "error" (by rfl)]
    decide
  have hparams : parseParams pr
      (some [.mk ["ctx"] (.SelectorExpr (.Ident "context") "Context"),
             .mk ["req"] (.Ident "User")]) =
      ("ctx context.Context, req api.User", ["ctx", "req"]) := by
    simp only [parseParams, parseParamsEntries_eq, declaredParams, fieldNames, Field.Names,
      Field.Typ, hctx, husr]
    decide
  have hresults : stringifyFields pr
      (some [.mk [] (.StarExpr (.Ident "User")), .mk [] (.Ident "error")]) =
      "(*api.User, error)" := by
    simp only [stringifyFields, stringifyFieldsLoop_eq, List.map, Field.Typ, hptr, herr]
    decide
  have hloop : runMethodsLoop pr [.mk ["CreateUser"]
        (.FuncType
          (some [.mk ["ctx"] (.SelectorExpr (.Ident "context") "Context"),
                 .mk ["req"] (.Ident "User")])
          (some [.mk [] (.StarExpr (.Ident "User")), .mk [] (.Ident "error")]))] [] =
      some [{
        Name := "CreateUser"
        FullParams := "ctx context.Context, req api.User"
        ParamNames := "ctx, req"
        Returns := "(*api.User, error)" }] := by
    simp only [runMethodsLoop, Field.Typ, Field.Names, List.head?, hparams, hresults,
      List.nil_append]
    decide
  unfold run scenarioFile
  rw [inspect_other, inspectList_bind, inspect_other]
  simp only [inspectList, Option.some_bind]
  rw [inspect_other, inspectList_bind, inspect_handler, hloop]
  simp [inspectList]

theorem run_scenario_witness :
    PrintsUpToLayout plainPrinter ∧
    run plainPrinter (scenarioFile []) = some [{
      Name := "CreateUser"
      FullParams := "ctx context.Context, req api.User"
      ParamNames := "ctx, req"
      Returns := "(*api.User, error)" }] :=
  ⟨plainPrinter_printsUpToLayout, run_scenario plainPrinter plainPrinter_printsUpToLayout []⟩

/-- C10: extraction completeness: for a tree with a single interface type
declaration named `Handler` whose K method signatures each carry a name,
the walk does not fail and produces exactly K `MethodData` values, in
declaration order, the i-th with the first name of the i-th signature, each
name non-empty (identifiers being non-empty). -/
theorem run_complete (pr : Expr → String) (node : Node) (list : List Field)
    (hsingle : handlerDecls node = [list])
    (hnamed : ∀ f ∈ methodSigs list, f.Names ≠ [])
    (hident : ∀ f ∈ methodSigs list, ∀ n ∈ f.Names, n ≠ "") :
    ∃ methods : List MethodData,
      run pr node = some methods ∧
      methods.length = (methodSigs list).length ∧
      methods.map (fun m => some m.Name) = (methodSigs list).map (fun f => f.Names.head?) ∧
      (∀ m ∈ methods, m.Name ≠ "") := by
  obtain ⟨ms, hrun, hmap⟩ := runMethodsLoop_named pr list [] hnamed
  refine ⟨ms, ?_, ?_, hmap, ?_⟩
  · unfold run
    rw [inspect_single_decl pr node [] list hsingle, hrun, List.nil_append]
  · have := congrArg List.length hmap
    simpa using this
  · intro m hm
    have hmem : some m.Name ∈ ms.map (fun m => some m.Name) :=
      List.mem_map.2 ⟨m, hm, rfl⟩
    rw [hmap] at hmem
    obtain ⟨f, hf, hfn⟩ := List.mem_map.1 hmem
    exact hident f hf m.Name (List.mem_of_mem_head? hfn)

theorem run_complete_witness :
    handlerDecls (scenarioFile []) =
      [[.mk ["CreateUser"]
        (.FuncType
          (some [.mk ["ctx"] (.SelectorExpr (.Ident "context") "Context"),
                 .mk ["req"] (.Ident "User")])
          (some [.mk [] (.StarExpr (.Ident "User")), .mk [] (.Ident "error")]))]] ∧
    ∃ methods : List MethodData,
      run plainPrinter (scenarioFile []) = some methods ∧
      methods.length = 1 ∧
      methods.map (fun m => some m.Name) = [some "CreateUser"] ∧
      (∀ m ∈ methods, m.Name ≠ "") :=
  ⟨rfl,
    run_complete plainPrinter (scenarioFile []) _ rfl
      (by simp [methodSigs, isMethodSig, Field.Typ, Field.Names])
      (by simp [methodSigs, isMethodSig, Field.Typ, Field.Names])⟩

/-! ## Lemmas on the walk over several declarations -/

theorem runMethodsLoop_acc (pr : Expr → String) :
    ∀ (list : List Field) (acc : List MethodData),
      runMethodsLoop pr list acc = (runMethodsLoop pr list []).map (fun ms => acc ++ ms)
  | [], acc => by simp [runMethodsLoop]
  | .mk names typ :: rest, acc => by
    have ih := runMethodsLoop_acc pr rest
    by_cases hsig : isMethodSig (.mk names typ) = true
    · cases typ <;> simp [isMethodSig, Field.Typ] at hsig
      rename_i params results
      cases names with
      | nil => simp [runMethodsLoop, Field.Typ, Field.Names]
      | cons name more =>
        simp only [runMethodsLoop, Field.Typ, Field.Names, List.head?, List.nil_append]
        rw [ih (acc ++ _), ih [_], Option.map_map]
        congr 1
        funext ms
        simp
    · cases typ <;> simp [isMethodSig, Field.Typ] at hsig <;>
        simpa [runMethodsLoop, Field.Typ] using ih acc

theorem methodsOfDecls_single (pr : Expr → String) (list : List Field) :
    methodsOfDecls pr [list] = runMethodsLoop pr list [] := by
  simp only [methodsOfDecls]
  cases runMethodsLoop pr list [] <;> simp

theorem methodsOfDecls_append (pr : Expr → String) (as bs : List (List Field)) :
    methodsOfDecls pr (as ++ bs) =
      (methodsOfDecls pr as).bind (fun x => (methodsOfDecls pr bs).map (fun y => x ++ y)) := by
  induction as with
  | nil =>
    cases h : methodsOfDecls pr bs <;> simp [methodsOfDecls, h]
  | cons a as ih =>
    have hcons : ∀ ls : List (List Field), methodsOfDecls pr (a :: ls) =
        (runMethodsLoop pr a []).bind (fun x => (methodsOfDecls pr ls).map (fun y => x ++ y)) := by
      intro ls
      simp only [methodsOfDecls]
      cases runMethodsLoop pr a [] <;> cases methodsOfDecls pr ls <;> simp
    rw [List.cons_append, hcons, hcons, ih]
    cases runMethodsLoop pr a [] <;> cases methodsOfDecls pr as <;>
      cases methodsOfDecls pr bs <;> simp

theorem visitedDecls_handler (list : List Field) (inner : List Node) :
    visitedDecls (.TypeSpec "Handler" (.InterfaceType list) inner) = [list] := by
  simp [visitedDecls]

theorem visitedDecls_not_handler (name : String) (typ : Expr) (inner : List Node)
    (h : name ≠ "Handler" ∨ ∀ list, typ ≠ .InterfaceType list) :
    visitedDecls (.TypeSpec name typ inner) = visitedDeclsList inner := by
  by_cases hn : name = "Handler"
  · have ht : ∀ list, typ ≠ .InterfaceType list := h.resolve_left (fun c => c hn)
    cases typ <;> simp_all [visitedDecls]
  · cases typ <;> simp [visitedDecls, hn]

mutual
theorem inspect_eq_visited (pr : Expr → String) :
    ∀ (n : Node) (acc : List MethodData),
      inspect pr n acc = (methodsOfDecls pr (visitedDecls n)).map (fun ms => acc ++ ms)
  | .TypeSpec name typ inner, acc => by
    rcases typeSpec_cases name typ with ⟨hn, l, ht⟩ | hne
    · subst hn; subst ht
      rw [inspect_handler, visitedDecls_handler, methodsOfDecls_single, runMethodsLoop_acc]
    · rw [inspect_not_handler pr name typ inner acc hne,
        visitedDecls_not_handler name typ inner hne]
      exact inspectList_eq_visited pr inner acc
  | .Other children, acc => by
    rw [inspect_other]
    simpa [visitedDecls] using inspectList_eq_visited pr children acc
theorem inspectList_eq_visited (pr : Expr → String) :
    ∀ (ns : List Node) (acc : List MethodData),
      inspectList pr ns acc =
        (methodsOfDecls pr (visitedDeclsList ns)).map (fun ms => acc ++ ms)
  | [], acc => by simp [inspectList, visitedDeclsList, methodsOfDecls]
  | n :: ns, acc => by
    rw [inspectList_bind, inspect_eq_visited pr n acc]
    simp only [visitedDeclsList, methodsOfDecls_append]
    cases methodsOfDecls pr (visitedDecls n) with
    | none => simp
    | some x =>
      simp only [Option.map_some', Option.some_bind, Option.map_map]
      rw [inspectList_eq_visited pr ns (acc ++ x)]
      congr 1
      funext y
      simp
end

theorem run_eq_visited (pr : Expr → String) (node : Node) :
    run pr node = methodsOfDecls pr (visitedDecls node) := by
  unfold run
  rw [inspect_eq_visited]
  cases methodsOfDecls pr (visitedDecls node) <;> simp

/-! ## Claims on the walk over several declarations -/

/-- C11 (as stated, refuted): in the file with a package-level `Handler`
interface followed by a `Handler` interface declared in a function body, the
produced list holds the methods of both declarations, not those of the first
one only. -/
theorem run_first_only_counterexample :
    handlerDecls twoHandlerFile = [[plainMethod "First"], [plainMethod "Second"]] ∧
    runMethodsLoop plainPrinter [plainMethod "First"] [] =
      some [{ Name := "First", FullParams := "", ParamNames := "", Returns := "" }] ∧
    run plainPrinter twoHandlerFile =
      some [{ Name := "First", FullParams := "", ParamNames := "", Returns := "" },
            { Name := "Second", FullParams := "", ParamNames := "", Returns := "" }] ∧
    run plainPrinter twoHandlerFile ≠ runMethodsLoop plainPrinter [plainMethod "First"] [] :=
  ⟨rfl, by decide, by decide, by decide⟩

/-- C11 (amended): the walk skips only the nodes below a matching
declaration and goes on after it: the produced list is the methods of every
interface type declaration named `Handler` that does not lie below another
one, one declaration after the other in walk order; with one such
declaration it is the methods of that declaration. -/
theorem run_visits_outer_decls (pr : Expr → String) (node : Node) :
    run pr node = methodsOfDecls pr (visitedDecls node) ∧
    (∀ (list : List Field) (inner : List Node),
      visitedDecls (.TypeSpec "Handler" (.InterfaceType list) inner) = [list]) ∧
    (∀ list : List Field, methodsOfDecls pr [list] = runMethodsLoop pr list []) ∧
    visitedDecls twoHandlerFile = [[plainMethod "First"], [plainMethod "Second"]] :=
  ⟨run_eq_visited pr node, visitedDecls_handler, methodsOfDecls_single pr, rfl⟩

/-- C12: a missing contract is not an error: for a tree with no type
declaration that is both named `Handler` and of interface type, the walk
does not fail and the method list is empty. -/
theorem run_no_contract (pr : Expr → String) (node : Node)
    (h : handlerDecls node = []) :
    run pr node = some [] :=
  inspect_no_decl pr node [] h

theorem run_no_contract_witness :
    handlerDecls noContractFile = [] ∧ run plainPrinter noContractFile = some [] :=
  ⟨rfl, run_no_contract plainPrinter noContractFile rfl⟩

/-! ## Later claims on `prefixType` -/

/-- C13 (as stated, refuted): `int64` is a predeclared type name and the
qualifier turns it into `api.int64`. -/
theorem prefixType_int64_counterexample :
    "int64" ∈ predeclaredTypes ∧
    prefixType (.Ident "int64") "api" = .SelectorExpr (.Ident "api") "int64" ∧
    prefixType (.Ident "int64") "api" ≠ .Ident "int64" := by
  refine ⟨by decide, rfl, ?_⟩
  rw [show prefixType (.Ident "int64") "api" = .SelectorExpr (.Ident "api") "int64" from rfl]
  intro h
  cases h

/-- C13 (amended): of the predeclared type names, the qualifier leaves
exactly `string`, `int`, `bool` and `error` unprefixed; every other
predeclared name (`int64`, `uint`, `float64`, `byte`, `rune`, `any`, ...) is
given the prefix like a user-defined type. -/
theorem prefixType_predeclared (name p : String) (h : name ∈ predeclaredTypes) :
    prefixType (.Ident name) p =
      (if name ∈ ["string", "int", "bool", "error"] then .Ident name
        else .SelectorExpr (.Ident p) name) := by
  simp only [predeclaredTypes, List.mem_cons, List.mem_singleton, List.not_mem_nil,
    or_false] at h
  rcases h with h | h | h | h | h | h | h | h | h | h | h | h | h | h | h | h | h | h | h | h |
    h | h <;> subst h <;> rfl

theorem prefixType_predeclared_witness :
    "float64" ∈ predeclaredTypes ∧
    prefixType (.Ident "float64") "api" =
      (if "float64" ∈ ["string", "int", "bool", "error"] then .Ident "float64"
        else .SelectorExpr (.Ident "api") "float64") :=
  ⟨by decide, prefixType_predeclared "float64" "api" (by decide)⟩

theorem typeIdents_prefixType_supported (p : String) :
    ∀ e : Expr, supported e = true → ∀ n ∈ typeIdents (prefixType e p), n ∈ builtinNames
  | .Ident name, _, n, hn => by
    cases hb : builtinsAt name
    · simp [prefixType, hb, typeIdents] at hn
    · simp only [prefixType, hb, if_true, typeIdents, List.mem_singleton] at hn
      rw [hn]
      exact (builtinsAt_iff name).1 hb
  | .StarExpr x, h, n, hn => by
    simp only [supported] at h
    simp only [prefixType, typeIdents] at hn
    exact typeIdents_prefixType_supported p x h n hn
  | .ArrayType _ elt, h, n, hn => by
    simp only [supported] at h
    simp only [prefixType, typeIdents] at hn
    exact typeIdents_prefixType_supported p elt h n hn
  | .SelectorExpr _ _, _, n, hn => by
    simp [prefixType, typeIdents] at hn
  | .Ellipsis _, h, _, _ => by simp [supported] at h
  | .MapType _ _, h, _, _ => by simp [supported] at h
  | .ChanType _ _, h, _, _ => by simp [supported] at h
  | .FuncType _ _, h, _, _ => by simp [supported] at h
  | .InterfaceType _, h, _, _ => by simp [supported] at h
  | .StructType _, h, _, _ => by simp [supported] at h
  | .ParenExpr _, h, _, _ => by simp [supported] at h
  | .BasicLit _, h, _, _ => by simp [supported] at h

theorem prefixType_of_not_outerSupported (p : String) :
    ∀ e : Expr, outerSupported e = false → prefixType e p = e
  | .Ident _, h => by simp [outerSupported] at h
  | .StarExpr _, h => by simp [outerSupported] at h
  | .ArrayType _ _, h => by simp [outerSupported] at h
  | .SelectorExpr _ _, h => by simp [outerSupported] at h
  | .Ellipsis _, _ => rfl
  | .MapType _ _, _ => rfl
  | .ChanType _ _, _ => rfl
  | .FuncType _ _, _ => rfl
  | .InterfaceType _, _ => rfl
  | .StructType _, _ => rfl
  | .ParenExpr _, _ => rfl
  | .BasicLit _, _ => rfl

/-- C14: complete qualification on the supported shapes: for an expression
built only from named, pointer, slice/array and qualified types, every
unqualified identifier in type position of the qualified expression is one of
string, int, bool, error, context. -/
theorem prefixType_complete (e : Expr) (p : String) (h : supported e = true) :
    ∀ n ∈ typeIdents (prefixType e p), n ∈ builtinNames :=
  typeIdents_prefixType_supported p e h

theorem prefixType_complete_witness :
    supported (.StarExpr (.ArrayType none (.Ident "User"))) = true ∧
    ∀ n ∈ typeIdents (prefixType (.StarExpr (.ArrayType none (.Ident "User"))) "api"),
      n ∈ builtinNames :=
  ⟨rfl, prefixType_complete (.StarExpr (.ArrayType none (.Ident "User"))) "api" rfl⟩

/-- C15: unsupported shapes pass through: an expression whose outermost
shape is none of identifier, pointer, slice/array or selector is returned
unchanged (the qualifier has no failure result), so the unqualified
identifiers nested in it stay unqualified; so for `map[string]User`,
`func(User)`, `chan User` and `...User`. -/
theorem prefixType_unsupported (e : Expr) (p : String) (h : outerSupported e = false) :
    prefixType e p = e ∧
    typeIdents (prefixType e p) = typeIdents e ∧
    prefixType (.MapType (.Ident "string") (.Ident "User")) p =
      .MapType (.Ident "string") (.Ident "User") ∧
    prefixType (.FuncType (some [.mk [] (.Ident "User")]) none) p =
      .FuncType (some [.mk [] (.Ident "User")]) none ∧
    prefixType (.ChanType .BOTH (.Ident "User")) p = .ChanType .BOTH (.Ident "User") ∧
    prefixType (.Ellipsis (some (.Ident "User"))) p = .Ellipsis (some (.Ident "User")) ∧
    "User" ∈ typeIdents (prefixType (.MapType (.Ident "string") (.Ident "User")) p) := by
  refine ⟨prefixType_of_not_outerSupported p e h, ?_, rfl, rfl, rfl, rfl, ?_⟩
  · rw [prefixType_of_not_outerSupported p e h]
  · simp [prefixType, typeIdents]

theorem prefixType_unsupported_witness :
    outerSupported (.MapType (.Ident "string") (.Ident "User")) = false ∧
    prefixType (.MapType (.Ident "string") (.Ident "User")) "api" =
      .MapType (.Ident "string") (.Ident "User") :=
  ⟨rfl, (prefixType_unsupported (.MapType (.Ident "string") (.Ident "User")) "api" rfl).1⟩

/-! ## Lemmas on text -/

theorem singleLine_iff (s : String) :
    singleLine s = true ↔ ∀ c ∈ s.data, c ≠ '\n' ∧ c ≠ '\t' := by
  simp [singleLine, List.all_eq_true]

theorem singleLine_append (a b : String) :
    singleLine (a ++ b) = (singleLine a && singleLine b) := by
  simp [singleLine, String.data_append, List.all_append]

theorem singleLine_stripLayout (s : String) : singleLine (stripLayout s) = true := by
  rw [singleLine_iff]
  intro c hc
  simp only [stripLayout, removeAll, List.mem_filter, bne_iff_ne, ne_eq] at hc
  exact ⟨hc.1.2, hc.2⟩

theorem singleLine_intercalate_go (sep : String) (hsep : singleLine sep = true) :
    ∀ (l : List String) (acc : String), singleLine acc = true →
      (∀ x ∈ l, singleLine x = true) → singleLine (String.intercalate.go acc sep l) = true
  | [], acc, hacc, _ => by simpa [String.intercalate.go] using hacc
  | a :: as, acc, hacc, hl => by
    simp only [String.intercalate.go]
    apply singleLine_intercalate_go sep hsep as
    · simp [singleLine_append, hacc, hsep, hl a (List.mem_cons_self _ _)]
    · intro x hx
      exact hl x (List.mem_cons_of_mem _ hx)

theorem singleLine_joinComma (l : List String) (hl : ∀ x ∈ l, singleLine x = true) :
    singleLine (joinComma l) = true := by
  cases l with
  | nil => decide
  | cons a as =>
    simp only [joinComma, String.intercalate]
    exact singleLine_intercalate_go ", " (by decide) as a (hl a (List.mem_cons_self _ _))
      (fun x hx => hl x (List.mem_cons_of_mem _ hx))

theorem digitChar_not_layout (m : Nat) (h : m < 10) :
    Nat.digitChar m ≠ '\n' ∧ Nat.digitChar m ≠ '\t' := by
  interval_cases m <;> exact ⟨by decide, by decide⟩

theorem toDigitsCore_not_layout :
    ∀ (fuel n : Nat) (ds : List Char), (∀ c ∈ ds, c ≠ '\n' ∧ c ≠ '\t') →
      ∀ c ∈ Nat.toDigitsCore 10 fuel n ds, c ≠ '\n' ∧ c ≠ '\t'
  | 0, _, ds, hds => by simpa [Nat.toDigitsCore] using hds
  | fuel + 1, n, ds, hds => by
    have hcons : ∀ c ∈ Nat.digitChar (n % 10) :: ds, c ≠ '\n' ∧ c ≠ '\t' := by
      intro c hc
      rcases List.mem_cons.1 hc with h | h
      · rw [h]
        exact digitChar_not_layout _ (Nat.mod_lt _ (by decide))
      · exact hds c h
    simp only [Nat.toDigitsCore]
    split
    · exact hcons
    · exact toDigitsCore_not_layout fuel (n / 10) _ hcons

theorem singleLine_repr (i : Nat) : singleLine (Nat.repr i) = true := by
  rw [singleLine_iff]
  intro c hc
  exact toDigitsCore_not_layout (i + 1) i [] (by simp) c
    (by simpa [Nat.repr, Nat.toDigits, List.asString] using hc)

theorem singleLine_sprintfArg (i : Nat) : singleLine (sprintfArg i) = true := by
  simp only [sprintfArg, singleLine_append, singleLine_repr, Bool.and_true]
  decide

theorem singleLine_typeText (pr : Expr → String) (t : Expr) :
    singleLine (typeText pr t) = true :=
  singleLine_stripLayout _

theorem digitChar_value (m : Nat) (h : m < 10) : (Nat.digitChar m).toNat - 48 = m := by
  interval_cases m <;> rfl

theorem toDigitsCore_value :
    ∀ (fuel n : Nat) (ds : List Char), n < fuel →
      digitsValue (Nat.toDigitsCore 10 fuel n ds) 0 = digitsValue ds n
  | 0, _, _, h => absurd h (Nat.not_lt_zero _)
  | fuel + 1, n, ds, h => by
    have hd : (Nat.digitChar (n % 10)).toNat - 48 = n % 10 :=
      digitChar_value _ (Nat.mod_lt _ (by decide))
    simp only [Nat.toDigitsCore]
    split
    · rename_i h0
      have hn : n % 10 = n := by omega
      simp only [digitsValue, List.foldl_cons, hd, Nat.zero_mul, Nat.zero_add]
      rw [hn]
    · rename_i h0
      have hlt : n / 10 < fuel := by omega
      rw [toDigitsCore_value fuel (n / 10) _ hlt]
      have hn : n / 10 * 10 + n % 10 = n := by omega
      simp only [digitsValue, List.foldl_cons, hd, hn]

theorem repr_injective (i j : Nat) (h : Nat.repr i = Nat.repr j) : i = j := by
  have hdata : Nat.toDigits 10 i = Nat.toDigits 10 j := by
    have := congrArg String.data h
    simpa [Nat.repr, List.asString] using this
  have hi := toDigitsCore_value (i + 1) i [] (Nat.lt_succ_self i)
  have hj := toDigitsCore_value (j + 1) j [] (Nat.lt_succ_self j)
  simp only [Nat.toDigits] at hdata
  rw [hdata, hj] at hi
  simpa [digitsValue] using hi.symm

theorem sprintfArg_injective (i j : Nat) (h : sprintfArg i = sprintfArg j) : i = j := by
  apply repr_injective
  have hdata := congrArg String.data h
  simp only [sprintfArg, String.data_append] at hdata
  exact String.ext (List.append_cancel_left hdata)

theorem declaredParams_singleLine (pr : Expr → String) :
    ∀ (list : List Field) (i : Nat),
      (∀ f ∈ list, ∀ n ∈ f.Names, singleLine n = true) →
      ∀ e ∈ declaredParams pr i list, singleLine e.1 = true ∧ singleLine e.2 = true
  | [], _, _, e, he => by simp [declaredParams] at he
  | f :: rest, i, h, e, he => by
    simp only [declaredParams, List.mem_append, List.mem_map] at he
    rcases he with ⟨n, hn, rfl⟩ | he
    · refine ⟨?_, singleLine_typeText pr _⟩
      by_cases hf : f.Names = []
      · simp only [fieldNames, hf, if_true, List.mem_singleton] at hn
        rw [hn]
        exact singleLine_sprintfArg i
      · simp only [fieldNames, hf, if_false] at hn
        exact h f (List.mem_cons_self _ _) n hn
    · exact declaredParams_singleLine pr rest (i + 1)
        (fun g hg => h g (List.mem_cons_of_mem _ hg)) e he

theorem stringifyFields_types_only (pr : Expr → String) (list : List Field) :
    stringifyFields pr (some list) =
      (if (list.map (fun f => typeText pr f.Typ)).length > 1
        then "(" ++ joinComma (list.map (fun f => typeText pr f.Typ)) ++ ")"
        else joinComma (list.map (fun f => typeText pr f.Typ))) := by
  simp [stringifyFields, stringifyFieldsLoop_eq]

/-! ## Later claims on the renderers -/

/-- C16: single-line output: the text returned by `stringifyFields` has no
line feed and no tab, and when the declared parameter names have none, the
full-parameter text returned by `parseParams` has none either. -/
theorem renderers_single_line (pr : Expr → String) (results params : Option (List Field))
    (hnames : ∀ f ∈ params.getD [], ∀ n ∈ f.Names, singleLine n = true) :
    singleLine (stringifyFields pr results) = true ∧
    singleLine (parseParams pr params).1 = true := by
  constructor
  · cases results with
    | none => rfl
    | some list =>
      have hparts : ∀ x ∈ list.map (fun f => typeText pr f.Typ), singleLine x = true := by
        intro x hx
        obtain ⟨f, _, rfl⟩ := List.mem_map.1 hx
        exact singleLine_typeText pr _
      have hjoin := singleLine_joinComma _ hparts
      rw [stringifyFields_types_only]
      split
      · simp only [singleLine_append, hjoin, Bool.and_true, Bool.true_and]
        decide
      · exact hjoin
  · cases params with
    | none => rfl
    | some list =>
      simp only [parseParams, parseParamsEntries_eq]
      apply singleLine_joinComma
      intro x hx
      obtain ⟨e, he, rfl⟩ := List.mem_map.1 hx
      have := declaredParams_singleLine pr list 0 (by simpa using hnames) e he
      simp only [sprintfNameType, singleLine_append, this.1, this.2, Bool.and_true,
        Bool.true_and]
      decide

theorem renderers_single_line_witness :
    (∀ f ∈ (some [Field.mk ["req"] (.Ident "User")]).getD [], ∀ n ∈ f.Names,
      singleLine n = true) ∧
    singleLine (stringifyFields (fun _ => "api.\n\tUser")
      (some [.mk [] (.Ident "User"), .mk [] (.Ident "error")])) = true ∧
    singleLine (parseParams (fun _ => "api.\n\tUser")
      (some [.mk ["req"] (.Ident "User")])).1 = true :=
  ⟨by simp [Field.Names]; decide,
    renderers_single_line (fun _ => "api.\n\tUser")
      (some [.mk [] (.Ident "User"), .mk [] (.Ident "error")])
      (some [.mk ["req"] (.Ident "User")]) (by simp [Field.Names]; decide)⟩

/-- C17 (the code at the failing input): for the results `(a, b int)`, one
field declaring two names, `stringifyFields` returns the type text once and
without parentheses (`int`), the declared names of a result field playing no
part in its output, while `parseParams` gives the same field two entries. -/
theorem stringifyFields_grouped_names (pr : Expr → String) :
    stringifyFields pr (some [.mk ["a", "b"] (.Ident "int")]) = typeText pr (.Ident "int") ∧
    stringifyFields plainPrinter (some [.mk ["a", "b"] (.Ident "int")]) = "int" ∧
    (∀ list : List Field,
      stringifyFields pr (some list) =
        stringifyFields pr (some (list.map (fun f => .mk [] f.Typ)))) ∧
    parseParams plainPrinter (some [.mk ["a", "b"] (.Ident "int")]) =
      ("a int, b int", ["a", "b"]) := by
  refine ⟨?_, by decide, ?_, by decide⟩
  · simp [stringifyFields_types_only, joinComma_singleton, Field.Typ]
  · intro list
    simp [stringifyFields_types_only, Field.Typ, Function.comp_def]

/-- C18: synthetic names are collision-free: for a parameter list in which
no field declares a name, the names returned by `parseParams` are pairwise
distinct, `arg<i>` and `arg<j>` being equal only for `i = j`. -/
theorem parseParams_synthetic_distinct (pr : Expr → String) (list : List Field)
    (h : ∀ f ∈ list, f.Names = []) :
    (parseParams pr (some list)).2.Nodup ∧
    (∀ i j : Nat, sprintfArg i = sprintfArg j → i = j) := by
  refine ⟨?_, sprintfArg_injective⟩
  simp only [parseParams, parseParamsEntries_eq, declaredParams_anonymous pr list 0 h,
    anonymousParams_names]
  exact (List.nodup_range' 0 list.length).map (fun i j hij => sprintfArg_injective i j hij)

theorem parseParams_synthetic_distinct_witness :
    (∀ f ∈ [Field.mk [] (.Ident "User"), Field.mk [] (.Ident "User")], f.Names = []) ∧
    (parseParams plainPrinter
      (some [.mk [] (.Ident "User"), .mk [] (.Ident "User")])).2.Nodup :=
  ⟨by simp [Field.Names],
    (parseParams_synthetic_distinct plainPrinter
      [.mk [] (.Ident "User"), .mk [] (.Ident "User")] (by simp [Field.Names])).1⟩

end FnGoGen
